import Mathlib

/-!
Verification of the piet text layout and hit-testing engine.

Part 1 embeds, directly from src/piet-cairo/src/text.rs, the pango-delegating
backend functions: count_trailing_whitespace, PangoText::load_font,
PangoTextLayout::hit_test_point and PangoTextLayout::hit_test_text_position.
Calls into the external pango library are modelled as oracle parameters.

Part 2 models, from the specification, the grapheme-level line breaker and
hit-test engine whose source modules are commented out of the backend
(the lines mod grapheme; and mod lines; at the top of text.rs), so that the
algorithmic claims about line breaking and the grapheme binary search can be
settled against the documented reference behaviour.
-/

namespace PietSpec

/-- Unicode scalar values with the White_Space property; this is the set used
by the Rust standard library function char::is_whitespace, which
count_trailing_whitespace in src/piet-cairo/src/text.rs calls. -/
def isRustWhitespace (c : Char) : Bool :=
  let n := c.toNat
  (0x09 ≤ n && n ≤ 0x0D) || n = 0x20 || n = 0x85 || n = 0xA0 || n = 0x1680 ||
  (0x2000 ≤ n && n ≤ 0x200A) || n = 0x2028 || n = 0x2029 || n = 0x202F ||
  n = 0x205F || n = 0x3000

/-- Number of bytes of the utf-8 encoding of a unicode scalar value. -/
def utf8Len (c : Char) : Nat :=
  if c.toNat < 0x80 then 1
  else if c.toNat < 0x800 then 2
  else if c.toNat < 0x10000 then 3
  else 4

/-- Embedded from src/piet-cairo/src/text.rs, count_trailing_whitespace:
takes the reversed character sequence of the line, keeps the leading run of
whitespace characters, and returns how many characters it holds. -/
def count_trailing_whitespace (line : List Char) : Nat :=
  (line.reverse.takeWhile isRustWhitespace).length

/-- The value the spec asks for: the length in utf-8 bytes of the maximal run
of trailing whitespace characters of the line. Stated from the spec's words
for comparison with count_trailing_whitespace. -/
def trailingWhitespaceBytes (line : List Char) : Nat :=
  ((line.reverse.takeWhile isRustWhitespace).map utf8Len).sum

/-- The piet error type, restricted to the variant the cairo backend uses. -/
inductive PietError where
  | NotSupported
  deriving DecidableEq

/-- A resolved font family handle (piet FontFamily): an opaque name. -/
structure RFontFamily where
  name : String
  deriving DecidableEq

/-- Abstract state of the PangoText factory (its pango font map and context),
modelled as the list of available family names; load_font never reads it. -/
structure PangoTextState where
  families : List String
  deriving DecidableEq

/-- Embedded from src/piet-cairo/src/text.rs, PangoText::load_font: the body
ignores the font data and the factory state and returns Err(Error::NotSupported).
The returned pair is (result, state after the call). -/
def load_font (st : PangoTextState) (data : List Nat) :
    Except PietError RFontFamily × PangoTextState :=
  (Except.error PietError.NotSupported, st)

/-- Result of point hit-testing, piet HitTestPoint: byte index and the
is_inside flag. -/
structure HitTestPointR where
  idx : Nat
  is_inside : Bool
  deriving DecidableEq

/-- Embedded from src/piet-cairo/src/text.rs, PangoTextLayout::hit_test_point.
The call into pango, Layout::xy_to_index, is the oracle parameter xyToIndex
(returning pango's (inside-text flag, byte index, trailing)); coordinates are
already converted to pango units. The source builds HitTestPoint::default()
(whose is_inside field is false) and only overwrites idx; the i32 to usize
conversion panics on a negative index, which the embedding returns as none. -/
def cairo_hit_test_point (xyToIndex : Int → Int → Bool × Int × Int)
    (x y : Int) : Option HitTestPointR :=
  if (xyToIndex x y).2.1 < 0 then none
  else some { idx := (xyToIndex x y).2.1.toNat, is_inside := false }

/-- Oracle view of the pango layout state used by hit_test_text_position:
the Layout::index_to_line_x call, the line count (which bounds the walk of
iter_at_line_number), and the per-line baseline read off the layout iterator. -/
structure PangoLayoutModel where
  indexToLineX : Nat → Bool → Int × Int
  lineCount : Nat
  baselineAt : Nat → Int

/-- Result of position hit-testing, piet HitTestPosition, with coordinates
kept in pango units as returned by the oracle. -/
structure HitTestPositionR where
  x : Int
  y : Int
  line : Nat
  deriving DecidableEq

/-- Embedded from src/piet-cairo/src/text.rs, PangoTextLayout::hit_test_text_position.
Panics in the source (usize to i32 overflow, a negative line from pango, or
iter_at_line_number returning None because the reported line does not exist)
are embedded as none; every other input flows straight through pango's
index_to_line_x with no character-boundary check of any kind. -/
def cairo_hit_test_text_position (L : PangoLayoutModel) (idx : Nat) :
    Option HitTestPositionR :=
  if idx < 2 ^ 31 then
    if (L.indexToLineX idx false).1 < 0 then none
    else if (L.indexToLineX idx false).1.toNat < L.lineCount then
      some { x := (L.indexToLineX idx false).2,
             y := L.baselineAt (L.indexToLineX idx false).1.toNat,
             line := (L.indexToLineX idx false).1.toNat }
    else none
  else none

/-! Part 2: the reference layout engine, modelled from the spec. -/

/-- Modelled from the spec: one grapheme cluster of a line, carrying its utf-8
byte length and its oracle-measured advance width (spec sections 3 and 4.1);
the backend's own grapheme module is commented out of src. -/
structure Grapheme where
  len : Nat
  width : Int
  deriving DecidableEq

/-- Total byte length of a grapheme sequence. -/
def bytesOf (gs : List Grapheme) : Nat := (gs.map Grapheme.len).sum

/-- Total advance width of a grapheme sequence. -/
def widthOf (gs : List Grapheme) : Int := (gs.map Grapheme.width).sum

/-- Byte offset of the grapheme boundary before cluster k. -/
def boundBytes (gs : List Grapheme) (k : Nat) : Nat := bytesOf (gs.take k)

/-- Advance width up to the grapheme boundary before cluster k; this is the
leading edge of cluster k and the trailing edge of cluster k - 1 (spec
GraphemeBounds, section 4.1). -/
def boundWidth (gs : List Grapheme) (k : Nat) : Int := widthOf (gs.take k)

/-- Modelled from the spec: one LineRecord (spec section 3), with the line's
content held as grapheme sequences. vis is the visible text, tws the trailing
whitespace folded into the line; start and y offsets are recovered by
accumulation over the layout, following the stacking convention. -/
structure ModelLine where
  vis : List Grapheme
  tws : List Grapheme
  baseline : Int
  height : Int
  deriving DecidableEq

/-- All graphemes of a line: visible text then trailing whitespace. -/
def ModelLine.gs (l : ModelLine) : List Grapheme := l.vis ++ l.tws

/-- Byte length of the whole line (end_offset - start_offset). -/
def ModelLine.byteLen (l : ModelLine) : Nat := bytesOf l.gs

/-- Byte length of the line's trailing whitespace (trailing_whitespace_len). -/
def ModelLine.twsLen (l : ModelLine) : Nat := bytesOf l.tws

/-- Byte offset of the start of line i (sum of the byte lengths of the lines
before it; spec section 3 contiguity invariant). -/
def lineStart (lines : List ModelLine) (i : Nat) : Nat :=
  ((lines.take i).map ModelLine.byteLen).sum

/-- The y offset of the top of line i (sum of the heights of the lines before
it; spec section 3 stacking convention). -/
def lineY (lines : List ModelLine) (i : Nat) : Int :=
  ((lines.take i).map ModelLine.height).sum

/-- Byte length of the layout's whole text. -/
def textLen (lines : List ModelLine) : Nat :=
  (lines.map ModelLine.byteLen).sum

/-- Modelled from the spec: advance width from the line's visible start up to
the grapheme boundary at or before the given line-local byte offset (spec
section 4.3, offset to point: an offset strictly inside a cluster snaps to the
cluster's leading edge). -/
def snapX : List Grapheme → Nat → Int
  | [], _ => 0
  | g :: gs, off => if g.len ≤ off then g.width + snapX gs (off - g.len) else 0

/-- Modelled from the spec: the grapheme binary search of hit_test_point (spec
section 4.3 step 2), written with explicit fuel so the recursion is structural;
the search window is the half-open interval of cluster indices from left to
right, and each iteration strictly shrinks it (right becomes middle, or left
becomes middle + 1). When the search x lies within the middle cluster's
leading and trailing edges, the nearer grapheme boundary is returned, ties
resolved toward the trailing edge. -/
def searchAux (gs : List Grapheme) (x : Int) : Nat → Nat → Nat → Nat
  | 0, left, _ => left
  | fuel + 1, left, right =>
    if left < right then
      if x < boundWidth gs (left + (right - left) / 2) then
        searchAux gs x fuel left (left + (right - left) / 2)
      else if boundWidth gs (left + (right - left) / 2 + 1) < x then
        searchAux gs x fuel (left + (right - left) / 2 + 1) right
      else if x - boundWidth gs (left + (right - left) / 2) <
          boundWidth gs (left + (right - left) / 2 + 1) - x then
        left + (right - left) / 2
      else left + (right - left) / 2 + 1
    else left

/-- Modelled from the spec: horizontal search within a line's visible text
(spec section 4.3 step 2). Returns the resolved line-local byte offset and the
horizontal in-bounds flag: beyond the last cluster's trailing edge resolves to
the visible end, at or before the first cluster's leading edge (that is, zero)
resolves to the line start, both out of bounds; otherwise the binary search
resolves to the nearest grapheme boundary, in bounds. An empty line resolves
to offset zero, out of bounds. -/
def hitLineX (vis : List Grapheme) (x : Int) : Nat × Bool :=
  match vis with
  | [] => (0, false)
  | _ :: _ =>
    if widthOf vis < x then (bytesOf vis, false)
    else if x ≤ 0 then (0, false)
    else (boundBytes vis (searchAux vis x vis.length 0 vis.length), true)

/-- Modelled from the spec: vertical bucketing over the stacked line boxes
(spec section 4.3 step 1) for a y coordinate at or past the layout top; a y
below every line selects the last line, out of bounds. The negative-y case is
handled by the caller. -/
def pickLine : List ModelLine → Int → Nat × Bool
  | [], _ => (0, false)
  | [l], y => (0, decide (y < l.height))
  | l :: l2 :: rest, y =>
    if y < l.height then (0, true)
    else ((pickLine (l2 :: rest) (y - l.height)).1 + 1,
          (pickLine (l2 :: rest) (y - l.height)).2)

/-- Vertical clamp: a negative y selects the first line and is out of bounds,
otherwise the stacked line boxes are searched (spec section 4.3 step 1). -/
def vPick (lines : List ModelLine) (y : Int) : Nat × Bool :=
  if y < 0 then (0, false) else pickLine lines y

/-- Combine the selected line index and vertical flag with the horizontal
search on that line's visible text; a line index past the layout (only
possible for an empty layout) resolves to offset zero, out of bounds. -/
def hitAt (lines : List ModelLine) (x : Int) (vi : Nat) (vin : Bool) :
    HitTestPointR :=
  match lines.get? vi with
  | none => { idx := 0, is_inside := false }
  | some l =>
    { idx := lineStart lines vi + (hitLineX l.vis x).1,
      is_inside := vin && (hitLineX l.vis x).2 }

/-- Modelled from the spec: hit_test_point over the line records (spec section
4.3, point to offset). Vertical bucketing picks the line (clamping above to
the first and below to the last line), the horizontal search resolves the
offset within that line's visible text, and the final is_inside flag is the
conjunction of the vertical and horizontal flags. -/
def hit_test_point (lines : List ModelLine) (x y : Int) : HitTestPointR :=
  hitAt lines x (vPick lines y).1 (vPick lines y).2

/-- Result of offset hit-testing in the model: point coordinates and line. -/
structure ModelHitPos where
  x : Int
  y : Int
  line : Nat
  deriving DecidableEq

/-- Locate the line holding the offset and produce the hit position; an offset
exactly at a line's end belongs to the next line unless the line is the last
one, which also clamps any offset past the end of the text (spec section 4.3,
offset to point). -/
def httAux : List ModelLine → Nat → Int → Nat → ModelHitPos
  | [], _, yAcc, i => { x := 0, y := yAcc, line := i }
  | [l], off, yAcc, i => { x := snapX l.gs off, y := yAcc + l.baseline, line := i }
  | l :: l2 :: rest, off, yAcc, i =>
    if off < l.byteLen then { x := snapX l.gs off, y := yAcc + l.baseline, line := i }
    else httAux (l2 :: rest) (off - l.byteLen) (yAcc + l.height) (i + 1)

/-- Modelled from the spec: hit_test_text_position over the line records (spec
section 4.3, offset to point): x is the advance width of the line-local text up
to the grapheme boundary at or before the offset, y is the line's y offset
plus its baseline. -/
def hit_test_text_position (lines : List ModelLine) (off : Nat) : ModelHitPos :=
  httAux lines off 0 0

/-- The piet LineMetric record (spec section 3 LineRecord). -/
structure ModelLineMetric where
  start_offset : Nat
  end_offset : Nat
  trailing_whitespace : Nat
  baseline : Int
  height : Int
  y_offset : Int
  deriving DecidableEq

/-- Modelled from the spec: line_metric, none past the last line (spec
section 7, out-of-range line numbers give an absent result). -/
def line_metric (lines : List ModelLine) (n : Nat) : Option ModelLineMetric :=
  match lines.get? n with
  | none => none
  | some l =>
    some { start_offset := lineStart lines n
           end_offset := lineStart lines n + l.byteLen
           trailing_whitespace := l.twsLen
           baseline := l.baseline
           height := l.height
           y_offset := lineY lines n }

/-- Modelled from the spec: one character of the input text as the line breaker
sees it (spec section 4.2): whitespace flag, hard-break flag, utf-8 byte
length, and oracle advance width. -/
structure Chr where
  ws : Bool
  hard : Bool
  len : Nat
  width : Int
  deriving DecidableEq

/-- A token of the line breaker: a word (maximal non-whitespace run), a gap
(maximal soft whitespace run) or a hard line break character. -/
inductive Tok where
  | word (cs : List Chr)
  | gap (cs : List Chr)
  | hard (c : Chr)
  deriving DecidableEq

/-- Prepend one character onto a token sequence, extending the first token
when the character continues the same run. -/
def consTok (c : Chr) (ts : List Tok) : List Tok :=
  if c.hard then Tok.hard c :: ts
  else if c.ws then
    match ts with
    | Tok.gap cs :: rest => Tok.gap (c :: cs) :: rest
    | _ => Tok.gap [c] :: ts
  else
    match ts with
    | Tok.word cs :: rest => Tok.word (c :: cs) :: rest
    | _ => Tok.word [c] :: ts

/-- Split the text into maximal word and whitespace runs and hard breaks. -/
def tokenize (cs : List Chr) : List Tok := cs.foldr consTok []

/-- Advance width of a character sequence. -/
def chrWidth (cs : List Chr) : Int := (cs.map Chr.width).sum

/-- Whether a width fits the wrapping constraint; none means infinity, which
disables wrapping (spec section 4.2). -/
def fits (maxW : Option Int) (w : Int) : Bool :=
  match maxW with
  | none => true
  | some m => decide (w ≤ m)

/-- View a character run as a grapheme run (one cluster per character; the
line breaker needs no finer clustering). -/
def toGraphemes (cs : List Chr) : List Grapheme :=
  cs.map fun c => { len := c.len, width := c.width }

/-- Build a line record from its visible content and trailing whitespace,
with the font's vertical metrics (spec section 4.2: baseline and height come
from the oracle's ascent and line height). -/
def mkLine (vis pending : List Chr) (ascent fh : Int) : ModelLine :=
  { vis := toGraphemes vis, tws := toGraphemes pending,
    baseline := ascent, height := fh }

/-- Modelled from the spec: the greedy whitespace-delimited line fill (spec
section 4.2). vis is the content committed to the current line (ending in a
word), pending the whitespace run after it. A word is accumulated while the
measured width without trailing whitespace stays within the constraint;
otherwise the line breaks before the word and the pending whitespace is folded
into the finished line as trailing whitespace. A word too wide for an empty
line is still placed (no mid-word breaking). A hard break always finishes the
line, so text ending in a hard break yields a final empty line record. -/
def fillAux (maxW : Option Int) (ascent fh : Int) :
    List Tok → List Chr → List Chr → List ModelLine
  | [], vis, pending => [mkLine vis pending ascent fh]
  | Tok.gap cs :: ts, vis, pending => fillAux maxW ascent fh ts vis (pending ++ cs)
  | Tok.hard c :: ts, vis, pending =>
    mkLine vis (pending ++ [c]) ascent fh :: fillAux maxW ascent fh ts [] []
  | Tok.word cs :: ts, vis, pending =>
    if fits maxW (chrWidth (vis ++ pending ++ cs)) || vis.isEmpty then
      fillAux maxW ascent fh ts (vis ++ pending ++ cs) []
    else
      mkLine vis pending ascent fh :: fillAux maxW ascent fh ts cs []

/-- Modelled from the spec: break_lines (spec section 4.2), producing the
layout's ordered line records; empty text yields exactly one synthetic empty
line carrying the font's ascent and height. -/
def break_lines (text : List Chr) (maxW : Option Int) (ascent fh : Int) :
    List ModelLine :=
  fillAux maxW ascent fh (tokenize text) [] []

/-! Helper lemmas about the model. -/

theorem bytesOf_append (a b : List Grapheme) :
    bytesOf (a ++ b) = bytesOf a + bytesOf b := by
  simp [bytesOf]

theorem boundBytes_le (gs : List Grapheme) (k : Nat) :
    boundBytes gs k ≤ bytesOf gs := by
  induction gs generalizing k with
  | nil => simp [boundBytes, bytesOf]
  | cons g rest ih =>
    cases k with
    | zero => simp [boundBytes, bytesOf]
    | succ k =>
      simpa [boundBytes, bytesOf] using Nat.add_le_add_left (ih k) g.len

theorem bytesOf_vis_le (l : ModelLine) : bytesOf l.vis ≤ l.byteLen := by
  simp only [ModelLine.byteLen, ModelLine.gs, bytesOf_append]
  exact Nat.le_add_right _ _

theorem hitLineX_le (vis : List Grapheme) (x : Int) :
    (hitLineX vis x).1 ≤ bytesOf vis := by
  match vis with
  | [] => simp [hitLineX, bytesOf]
  | g :: rest =>
    simp only [hitLineX]
    split
    · exact Nat.le_refl _
    · split
      · exact Nat.zero_le _
      · exact boundBytes_le _ _

theorem lineStart_zero (lines : List ModelLine) : lineStart lines 0 = 0 := rfl

theorem lineStart_cons_succ (a : ModelLine) (rest : List ModelLine) (i : Nat) :
    lineStart (a :: rest) (i + 1) = a.byteLen + lineStart rest i := rfl

theorem lineY_cons_succ (a : ModelLine) (rest : List ModelLine) (i : Nat) :
    lineY (a :: rest) (i + 1) = a.height + lineY rest i := rfl

theorem lineStart_add_le (lines : List ModelLine) (i : Nat) (l : ModelLine)
    (h : lines.get? i = some l) :
    lineStart lines i + l.byteLen ≤ textLen lines := by
  induction lines generalizing i with
  | nil => simp at h
  | cons a rest ih =>
    cases i with
    | zero =>
      simp only [List.get?] at h
      cases h
      simpa [lineStart, textLen] using Nat.le_add_right _ _
    | succ i =>
      simp only [List.get?] at h
      have h1 := ih i h
      have h2 : textLen (a :: rest) = a.byteLen + textLen rest := by
        simp [textLen]
      rw [lineStart_cons_succ, h2]
      omega

theorem snapX_nonneg (gs : List Grapheme) (hw : ∀ g ∈ gs, 0 ≤ g.width)
    (off : Nat) : 0 ≤ snapX gs off := by
  induction gs generalizing off with
  | nil => simp [snapX]
  | cons g rest ih =>
    simp only [snapX]
    split
    · have h1 : (0 : Int) ≤ g.width := hw g (by simp)
      have h2 := ih (fun g hg => hw g (by simp [hg])) (off - g.len)
      omega
    · exact Int.le_refl 0

theorem snapX_mono (gs : List Grapheme) (hw : ∀ g ∈ gs, 0 ≤ g.width)
    (o1 o2 : Nat) (h12 : o1 ≤ o2) : snapX gs o1 ≤ snapX gs o2 := by
  induction gs generalizing o1 o2 with
  | nil => simp [snapX]
  | cons g rest ih =>
    simp only [snapX]
    by_cases h1 : g.len ≤ o1
    · rw [if_pos h1, if_pos (Nat.le_trans h1 h12)]
      have := ih (fun g hg => hw g (by simp [hg])) (o1 - g.len) (o2 - g.len)
        (Nat.sub_le_sub_right h12 _)
      omega
    · rw [if_neg h1]
      split
      · have hwg : (0 : Int) ≤ g.width := hw g (by simp)
        have := snapX_nonneg rest (fun g hg => hw g (by simp [hg])) (o2 - g.len)
        omega
      · exact Int.le_refl 0

theorem snapX_all (gs : List Grapheme) : snapX gs (bytesOf gs) = widthOf gs := by
  induction gs with
  | nil => simp [snapX, bytesOf, widthOf]
  | cons g rest ih =>
    have hb : bytesOf (g :: rest) = g.len + bytesOf rest := by simp [bytesOf]
    simp only [snapX, hb, widthOf, List.map, List.sum_cons]
    rw [if_pos (Nat.le_add_right _ _), Nat.add_sub_cancel_left, ih]
    rfl

theorem snapX_interior (gs : List Grapheme) (hl : ∀ g ∈ gs, 1 ≤ g.len)
    (k off : Nat) (hk : k < gs.length)
    (h1 : boundBytes gs k ≤ off) (h2 : off < boundBytes gs (k + 1)) :
    snapX gs off = boundWidth gs k := by
  induction gs generalizing k off with
  | nil => simp at hk
  | cons g rest ih =>
    cases k with
    | zero =>
      have hb : boundBytes (g :: rest) 1 = g.len := by simp [boundBytes, bytesOf]
      rw [hb] at h2
      simp only [snapX, boundWidth, widthOf, List.take, List.map, List.sum_nil]
      rw [if_neg (by omega)]
    | succ k =>
      have hb : ∀ j, boundBytes (g :: rest) (j + 1) = g.len + boundBytes rest j := by
        intro j; simp [boundBytes, bytesOf]
      rw [hb] at h1 h2
      have hgo : g.len ≤ off := Nat.le_trans (Nat.le_add_right _ _) h1
      simp only [snapX, if_pos hgo]
      have hw : boundWidth (g :: rest) (k + 1) = g.width + boundWidth rest k := by
        simp [boundWidth, widthOf]
      rw [hw, ih (fun g hg => hl g (by simp [hg])) k (off - g.len)
        (by simpa using Nat.lt_of_succ_lt_succ hk) (by omega) (by omega)]

theorem snapX_vis_boundary (vis tws : List Grapheme)
    (hl : ∀ g ∈ vis ++ tws, 1 ≤ g.len) (k : Nat) (hk : k ≤ vis.length) :
    snapX (vis ++ tws) (boundBytes vis k) = boundWidth vis k := by
  induction vis generalizing k with
  | nil =>
    have hk0 : k = 0 := Nat.le_zero.mp hk
    subst hk0
    cases tws with
    | nil => rfl
    | cons t r =>
      have h1 : 1 ≤ t.len := hl t (by simp)
      show snapX (t :: r) 0 = 0
      simp only [snapX]
      rw [if_neg (by omega)]
  | cons g rest ih =>
    cases k with
    | zero =>
      have h1 : 1 ≤ g.len := hl g (by simp)
      show snapX (g :: (rest ++ tws)) 0 = 0
      simp only [snapX]
      rw [if_neg (by omega)]
    | succ k =>
      have hb : boundBytes (g :: rest) (k + 1) = g.len + boundBytes rest k := by
        simp [boundBytes, bytesOf]
      have hww : boundWidth (g :: rest) (k + 1) = g.width + boundWidth rest k := by
        simp [boundWidth, widthOf]
      rw [hb, hww]
      show snapX (g :: (rest ++ tws)) (g.len + boundBytes rest k) = _
      simp only [snapX]
      rw [if_pos (Nat.le_add_right _ _), Nat.add_sub_cancel_left,
        ih (fun x hx => hl x (List.mem_cons_of_mem g hx)) k (Nat.le_of_succ_le_succ hk)]

theorem widthOf_nonneg (gs : List Grapheme) (hw : ∀ g ∈ gs, 0 ≤ g.width) :
    0 ≤ widthOf gs := by
  induction gs with
  | nil => simp [widthOf]
  | cons g rest ih =>
    have h1 := hw g (by simp)
    have h2 := ih (fun x hx => hw x (by simp [hx]))
    have hww : widthOf (g :: rest) = g.width + widthOf rest := by simp [widthOf]
    omega

theorem boundWidth_nonneg (gs : List Grapheme) (hw : ∀ g ∈ gs, 0 ≤ g.width)
    (k : Nat) : 0 ≤ boundWidth gs k := by
  induction gs generalizing k with
  | nil => simp [boundWidth, widthOf]
  | cons g rest ih =>
    cases k with
    | zero => simp [boundWidth, widthOf]
    | succ k =>
      have h1 := hw g (by simp)
      have h2 := ih (fun x hx => hw x (by simp [hx])) k
      have hb : boundWidth (g :: rest) (k + 1) = g.width + boundWidth rest k := by
        simp [boundWidth, widthOf]
      omega

theorem boundWidth_le_total (gs : List Grapheme) (hw : ∀ g ∈ gs, 0 ≤ g.width)
    (k : Nat) : boundWidth gs k ≤ widthOf gs := by
  induction gs generalizing k with
  | nil => simp [boundWidth, widthOf]
  | cons g rest ih =>
    cases k with
    | zero =>
      have := widthOf_nonneg (g :: rest) hw
      simpa [boundWidth, widthOf] using this
    | succ k =>
      have h2 := ih (fun x hx => hw x (by simp [hx])) k
      have hb : boundWidth (g :: rest) (k + 1) = g.width + boundWidth rest k := by
        simp [boundWidth, widthOf]
      have hww : widthOf (g :: rest) = g.width + widthOf rest := by simp [widthOf]
      omega

theorem boundWidth_lt (gs : List Grapheme) (hw : ∀ g ∈ gs, 0 < g.width) :
    ∀ i j, i < j → j ≤ gs.length → boundWidth gs i < boundWidth gs j := by
  induction gs with
  | nil => intro i j hij hj; simp at hj; omega
  | cons g rest ih =>
    intro i j hij hj
    cases i with
    | zero =>
      cases j with
      | zero => omega
      | succ j =>
        have hb0 : boundWidth (g :: rest) 0 = 0 := rfl
        have hb : boundWidth (g :: rest) (j + 1) = g.width + boundWidth rest j := by
          simp [boundWidth, widthOf]
        have h1 := hw g (by simp)
        have h2 := boundWidth_nonneg rest (fun x hx => le_of_lt (hw x (by simp [hx]))) j
        omega
    | succ i =>
      cases j with
      | zero => omega
      | succ j =>
        have hbi : boundWidth (g :: rest) (i + 1) = g.width + boundWidth rest i := by
          simp [boundWidth, widthOf]
        have hbj : boundWidth (g :: rest) (j + 1) = g.width + boundWidth rest j := by
          simp [boundWidth, widthOf]
        have h3 := ih (fun x hx => hw x (by simp [hx])) i j (by omega)
          (by simpa using Nat.le_of_succ_le_succ hj)
        omega

theorem searchAux_boundary (gs : List Grapheme) (hw : ∀ g ∈ gs, 0 < g.width)
    (k : Nat) (hk : k ≤ gs.length) (fuel : Nat) :
    ∀ left right, right - left ≤ fuel → left ≤ k → k ≤ right →
      right ≤ gs.length →
      searchAux gs (boundWidth gs k) fuel left right = k := by
  induction fuel with
  | zero =>
    intro left right h1 h2 h3 _
    simp only [searchAux]
    omega
  | succ fuel ih =>
    intro left right hfuel hlk hkr hrlen
    by_cases hlr : left < right
    · have hdiv : (right - left) / 2 < right - left :=
        Nat.div_lt_self (by omega) (by norm_num)
      simp only [searchAux]
      rw [if_pos hlr]
      set m := left + (right - left) / 2 with hm
      have hmlt : m < right := by omega
      have hmge : left ≤ m := by omega
      rcases Nat.lt_trichotomy m k with hmk | hmk | hmk
      · have hlead : boundWidth gs m < boundWidth gs k := boundWidth_lt gs hw m k hmk hk
        rw [if_neg (by omega)]
        rcases Nat.lt_or_ge (m + 1) k with hm1k | hm1k
        · have htrail : boundWidth gs (m + 1) < boundWidth gs k :=
            boundWidth_lt gs hw _ _ hm1k hk
          rw [if_pos (by omega)]
          exact ih (m + 1) right (by omega) (by omega) hkr hrlen
        · have hk1 : m + 1 = k := by omega
          have heq : boundWidth gs (m + 1) = boundWidth gs k := by rw [hk1]
          rw [if_neg (by omega), if_neg (by omega)]
          exact hk1
      · have heq : boundWidth gs m = boundWidth gs k := by rw [hmk]
        have hlt : boundWidth gs k < boundWidth gs (m + 1) := by
          have := boundWidth_lt gs hw k (m + 1) (by omega) (by omega)
          exact this
        rw [if_neg (by omega), if_neg (by omega), if_pos (by omega)]
        exact hmk
      · have hlead : boundWidth gs k < boundWidth gs m :=
          boundWidth_lt gs hw k m hmk (by omega)
        rw [if_pos (by omega)]
        exact ih left m (by omega) hlk (by omega) (by omega)
    · simp only [searchAux]
      rw [if_neg hlr]
      omega

theorem hitLineX_boundary (vis : List Grapheme) (hw : ∀ g ∈ vis, 0 < g.width)
    (k : Nat) (hk : k ≤ vis.length) :
    (hitLineX vis (boundWidth vis k)).1 = boundBytes vis k := by
  cases vis with
  | nil =>
    have hk0 : k = 0 := by simpa using hk
    subst hk0
    rfl
  | cons g rest =>
    have hwn : ∀ x ∈ g :: rest, 0 ≤ x.width := fun x hx => le_of_lt (hw x hx)
    by_cases hk0 : k = 0
    · subst hk0
      have hb0 : boundWidth (g :: rest) 0 = 0 := rfl
      have hwt := widthOf_nonneg (g :: rest) hwn
      simp only [hitLineX, hb0]
      rw [if_neg (by omega), if_pos (by omega)]
      rfl
    · have hx0 : 0 < boundWidth (g :: rest) k := by
        have := boundWidth_lt (g :: rest) hw 0 k (by omega) hk
        simpa using this
      have hxt : boundWidth (g :: rest) k ≤ widthOf (g :: rest) :=
        boundWidth_le_total _ hwn k
      simp only [hitLineX]
      rw [if_neg (by omega), if_neg (by omega)]
      rw [searchAux_boundary (g :: rest) hw k hk (g :: rest).length 0
        (g :: rest).length (by omega) (by omega) hk (Nat.le_refl _)]

theorem lineY_nonneg (lines : List ModelLine) (hh : ∀ m ∈ lines, 0 ≤ m.height)
    (i : Nat) : 0 ≤ lineY lines i := by
  induction lines generalizing i with
  | nil => simp [lineY]
  | cons a rest ih =>
    cases i with
    | zero => simp [lineY]
    | succ i =>
      have h1 := hh a (by simp)
      have h2 := ih (fun x hx => hh x (by simp [hx])) i
      rw [lineY_cons_succ]
      omega

theorem httAux_spec (lines : List ModelLine) :
    ∀ (i : Nat) (l : ModelLine) (off : Nat), lines.get? i = some l →
    (off < l.byteLen ∨ i + 1 = lines.length) →
    ∀ yAcc base, httAux lines (lineStart lines i + off) yAcc base =
      { x := snapX l.gs off, y := yAcc + lineY lines i + l.baseline,
        line := base + i } := by
  induction lines with
  | nil => intro i l off hget; simp at hget
  | cons a rest ih =>
    intro i l off hget hside yAcc base
    cases i with
    | zero =>
      simp only [List.get?, Option.some.injEq] at hget
      subst hget
      cases rest with
      | nil => simp [httAux, lineStart, lineY]
      | cons b rs =>
        have hoff : off < a.byteLen := by
          rcases hside with h | h
          · exact h
          · simp at h
        simp only [lineStart_zero, Nat.zero_add, httAux]
        rw [if_pos hoff]
        simp [lineY]
    | succ i =>
      simp only [List.get?] at hget
      cases rest with
      | nil => simp at hget
      | cons b rs =>
        have harg : lineStart (a :: b :: rs) (i + 1) + off
            = a.byteLen + (lineStart (b :: rs) i + off) := by
          rw [lineStart_cons_succ]; omega
        rw [harg]
        simp only [httAux]
        rw [if_neg (by omega)]
        have hsub : a.byteLen + (lineStart (b :: rs) i + off) - a.byteLen
            = lineStart (b :: rs) i + off := by omega
        rw [hsub]
        have hside2 : off < l.byteLen ∨ i + 1 = (b :: rs).length := by
          rcases hside with h | h
          · exact Or.inl h
          · right; simpa using h
        rw [ih i l off hget hside2 (yAcc + a.height) (base + 1)]
        rw [lineY_cons_succ]
        simp only [ModelHitPos.mk.injEq, true_and]
        exact ⟨by omega, by omega⟩

theorem pickLine_spec (lines : List ModelLine) :
    ∀ (i : Nat) (l : ModelLine), lines.get? i = some l →
    (∀ m ∈ lines, 0 ≤ m.height) → 0 ≤ l.baseline → l.baseline < l.height →
    pickLine lines (lineY lines i + l.baseline) = (i, true) := by
  induction lines with
  | nil => intro i l h; simp at h
  | cons a rest ih =>
    intro i l hget hh hb0 hbh
    cases i with
    | zero =>
      simp only [List.get?, Option.some.injEq] at hget
      subst hget
      have h0 : lineY (a :: rest) 0 + a.baseline = a.baseline := by simp [lineY]
      rw [h0]
      cases rest with
      | nil =>
        simp only [pickLine]
        simp [hbh]
      | cons b rs =>
        simp only [pickLine]
        rw [if_pos hbh]
    | succ i =>
      simp only [List.get?] at hget
      cases rest with
      | nil => simp at hget
      | cons b rs =>
        have harg : lineY (a :: b :: rs) (i + 1) + l.baseline
            = a.height + (lineY (b :: rs) i + l.baseline) := by
          rw [lineY_cons_succ]; ring
        have hy0 : 0 ≤ lineY (b :: rs) i :=
          lineY_nonneg _ (fun m hm => hh m (by simp [hm])) i
        rw [harg]
        simp only [pickLine]
        rw [if_neg (by omega)]
        have hsub : a.height + (lineY (b :: rs) i + l.baseline) - a.height
            = lineY (b :: rs) i + l.baseline := by omega
        rw [hsub, ih i l hget (fun m hm => hh m (by simp [hm])) hb0 hbh]

/-! Concrete layouts used by the claim theorems, built from the widths the
repository's own tests print for the default linux font. -/

/-- The single-line layout of the regression input of
test_hit_test_point_complex_1 (a t, two two-byte sharp-s characters, then
y, p, i): byte lengths 1,2,2,1,1,1 and cluster widths 5,8,8,7,8,3, matching
the boundary positions 0,5,13,21,28,36,39 printed by the test. -/
def tssLine : ModelLine :=
  { vis := [{ len := 1, width := 5 }, { len := 2, width := 8 },
            { len := 2, width := 8 }, { len := 1, width := 7 },
            { len := 1, width := 8 }, { len := 1, width := 3 }],
    tws := [], baseline := 10, height := 12 }

/-- The single-line layout of the input of test_hit_test_text_position_complex_1
(an e-acute, a seven-byte keycap cluster, the digit one, a four-byte
mathematical letter): byte lengths 2,7,1,4 and cluster widths 7,17,8,7,
matching the boundary positions 0,7,24,32,39 printed by the test. -/
def cplxLine : ModelLine :=
  { vis := [{ len := 2, width := 7 }, { len := 7, width := 17 },
            { len := 1, width := 8 }, { len := 4, width := 7 }],
    tws := [], baseline := 10, height := 12 }

/-- A line whose text is one letter followed by one no-break space: the
character list fed to count_trailing_whitespace. -/
def nbspLine : List Char := ['a', Char.ofNat 160]

/-- The input text of test_multiline_hit_test_text_position_basic,
piet-space-space-text-bang, with per-character widths 6,3,7,5 for piet, 4 for
each space and 5,7,5,5,3 for text-bang (so piet measures 21, piet-space 25 and
text-bang 25). -/
def pietText : List Chr :=
  [{ ws := false, hard := false, len := 1, width := 6 },
   { ws := false, hard := false, len := 1, width := 3 },
   { ws := false, hard := false, len := 1, width := 7 },
   { ws := false, hard := false, len := 1, width := 5 },
   { ws := true, hard := false, len := 1, width := 4 },
   { ws := true, hard := false, len := 1, width := 4 },
   { ws := false, hard := false, len := 1, width := 5 },
   { ws := false, hard := false, len := 1, width := 7 },
   { ws := false, hard := false, len := 1, width := 5 },
   { ws := false, hard := false, len := 1, width := 5 },
   { ws := false, hard := false, len := 1, width := 3 }]

/-- The layout of pietText wrapped at width 25 with ascent 10 and height 14. -/
def pietLayout : List ModelLine := break_lines pietText (some 25) 10 14

/-- The first line the breaker produces for pietText at width 25: visible
piet with the two spaces folded in as trailing whitespace. -/
def pietLine0 : ModelLine :=
  { vis := [{ len := 1, width := 6 }, { len := 1, width := 3 },
            { len := 1, width := 7 }, { len := 1, width := 5 }],
    tws := [{ len := 1, width := 4 }, { len := 1, width := 4 }],
    baseline := 10, height := 14 }

/-- A single-line layout of one letter (width 5) with one trailing space
(width 3): the counterexample input for the round-trip claim. -/
def spaceLine : ModelLine :=
  { vis := [{ len := 1, width := 5 }], tws := [{ len := 1, width := 3 }],
    baseline := 10, height := 12 }

/-- All graphemes of a layout's text in order. -/
def layoutGs (lines : List ModelLine) : List Grapheme :=
  (lines.map ModelLine.gs).flatten

/-- Whether a byte offset is a grapheme-cluster boundary of the sequence. -/
def isGraphemeBoundary (gs : List Grapheme) (o : Nat) : Bool :=
  (List.range (gs.length + 1)).any fun k => boundBytes gs k == o

/-- A pango oracle for a one-line layout of the two-byte character e-acute of
width seven pango units: index 0 maps to x 0 and every other index to the
right edge; the baseline sits at ten units. -/
def eAcuteModel : PangoLayoutModel :=
  { indexToLineX := fun i _ => (0, if i = 0 then 0 else 7),
    lineCount := 1,
    baselineAt := fun _ => 10 }

/-! The claim theorems. -/

/-- C1: the backend hit_test_point never computes the conjunction of the
vertical and horizontal in-bounds checks: the source builds
HitTestPoint::default(), whose is_inside field is false, and only overwrites
idx, so every successful call reports is_inside = false no matter what pango
answers and where the point lies. This contradicts the repository's own test
test_hit_test_point_basic_0, which asserts is_inside = true for a point
inside the layout. -/
theorem C1_is_inside_always_false
    (f : Int → Int → Bool × Int × Int) (x y : Int) (r : HitTestPointR)
    (h : cairo_hit_test_point f x y = some r) : r.is_inside = false := by
  unfold cairo_hit_test_point at h
  by_cases hc : (f x y).2.1 < 0
  · rw [if_pos hc] at h
    exact Option.noConfusion h
  · rw [if_neg hc] at h
    cases h
    rfl

/-- C1 witness: a concrete pango oracle answering index 5; the call succeeds
and the theorem yields is_inside = false. -/
theorem C1_is_inside_always_false_witness :
    cairo_hit_test_point (fun _ _ => (true, 5, 0)) 56 0
        = some { idx := 5, is_inside := false } ∧
      ({ idx := 5, is_inside := false } : HitTestPointR).is_inside = false :=
  ⟨rfl, C1_is_inside_always_false (fun _ _ => (true, 5, 0)) 56 0
    { idx := 5, is_inside := false } rfl⟩

/-- C2: the modelled hit_test_point is a total function (its binary search is
structurally bounded by the cluster count) whose resulting offset is a
position within the text for every layout and every point, on or off the
layout; and on the regression layout of test_hit_test_point_complex_1,
hit-testing x = 27 returns byte offset 6 (the point falls inside the cluster
y spanning widths 21 to 28 and resolves to the nearer trailing edge), with no
hang. -/
theorem C2_hit_test_point_total_and_regression :
    (∀ (lines : List ModelLine) (x y : Int),
        (hit_test_point lines x y).idx ≤ textLen lines) ∧
      hit_test_point [tssLine] 27 0 = { idx := 6, is_inside := true } := by
  constructor
  · intro lines x y
    unfold hit_test_point hitAt
    cases hget : lines.get? (vPick lines y).1 with
    | none => exact Nat.zero_le _
    | some l =>
      have h1 := hitLineX_le l.vis x
      have h2 := bytesOf_vis_le l
      have h3 := lineStart_add_le lines _ l hget
      show lineStart lines (vPick lines y).1 + (hitLineX l.vis x).1 ≤ _
      omega
  · decide

/-- C3: count_trailing_whitespace counts whitespace characters, not utf-8
bytes: on a line ending in a single no-break space (U+00A0, two bytes in
utf-8, whitespace for char::is_whitespace) it returns 1 where the claim, the
spec and the comment at the call site in line_metric (length of whitespace in
code units, bytes for utf-8) require 2. -/
theorem C3_trailing_whitespace_chars_not_bytes :
    count_trailing_whitespace nbspLine = 1 ∧
      trailingWhitespaceBytes nbspLine = 2 ∧
      count_trailing_whitespace nbspLine ≠ trailingWhitespaceBytes nbspLine := by
  decide

/-- C4: in the modelled engine an offset on a byte position strictly inside
grapheme cluster k of its line resolves to the cluster's leading edge: the x
coordinate of hit_test_text_position is the advance width up to boundary k,
never a position interpolated inside the cluster. -/
theorem C4_mid_cluster_snaps_to_leading_edge
    (lines : List ModelLine) (i k off : Nat) (l : ModelLine)
    (hget : lines.get? i = some l)
    (hlen : ∀ g ∈ l.gs, 1 ≤ g.len)
    (hk : k < l.gs.length)
    (h1 : boundBytes l.gs k < off) (h2 : off < boundBytes l.gs (k + 1)) :
    (hit_test_text_position lines (lineStart lines i + off)).x
      = boundWidth l.gs k := by
  have hoff : off < l.byteLen := Nat.lt_of_lt_of_le h2 (boundBytes_le l.gs (k + 1))
  show (httAux lines (lineStart lines i + off) 0 0).x = _
  rw [httAux_spec lines i l off hget (Or.inl hoff) 0 0]
  exact snapX_interior l.gs hlen k off hk (Nat.le_of_lt h1) h2

/-- C4 witness: the test_hit_test_text_position_complex_1 layout at offset 3,
which is a character boundary strictly inside the seven-byte keycap cluster
(bytes 2 to 9): the x position is the cluster's leading edge, width 7. -/
theorem C4_mid_cluster_snaps_to_leading_edge_witness :
    boundBytes cplxLine.gs 1 < 3 ∧ 3 < boundBytes cplxLine.gs 2 ∧
      (hit_test_text_position [cplxLine] (lineStart [cplxLine] 0 + 3)).x
        = boundWidth cplxLine.gs 1 :=
  ⟨by decide, by decide,
    C4_mid_cluster_snaps_to_leading_edge [cplxLine] 0 1 3 cplxLine rfl
      (by decide) (by decide) (by decide) (by decide)⟩

/-- C5: within one line of the modelled engine the offset-to-x mapping of
hit_test_text_position is monotone non-decreasing: for offsets o1 before o2
assigned to the same line, x(o1) is at most x(o2), the cluster widths being
non-negative. -/
theorem C5_offset_to_x_monotone
    (lines : List ModelLine) (i o1 o2 : Nat) (l : ModelLine)
    (hget : lines.get? i = some l)
    (hw : ∀ g ∈ l.gs, 0 ≤ g.width)
    (h12 : o1 < o2)
    (hs1 : o1 < l.byteLen ∨ i + 1 = lines.length)
    (hs2 : o2 < l.byteLen ∨ i + 1 = lines.length) :
    (hit_test_text_position lines (lineStart lines i + o1)).x
      ≤ (hit_test_text_position lines (lineStart lines i + o2)).x := by
  show (httAux lines _ 0 0).x ≤ (httAux lines _ 0 0).x
  rw [httAux_spec lines i l o1 hget hs1 0 0, httAux_spec lines i l o2 hget hs2 0 0]
  exact snapX_mono l.gs hw o1 o2 (Nat.le_of_lt h12)

/-- C5 witness: on the tssLine layout, offset 1 maps to x 5 and offset 3 to
x 13, so the mapping is monotone there. -/
theorem C5_offset_to_x_monotone_witness :
    (1 : Nat) < 3 ∧
      (hit_test_text_position [tssLine] (lineStart [tssLine] 0 + 1)).x
        ≤ (hit_test_text_position [tssLine] (lineStart [tssLine] 0 + 3)).x :=
  ⟨by decide, C5_offset_to_x_monotone [tssLine] 0 1 3 tssLine rfl
    (by decide) (by decide) (by decide) (by decide)⟩

/-- C6 counterexample: on the single-line layout whose text is one letter
followed by one trailing space, offset 2 (the end of the text) is a grapheme
boundary, but hit_test_text_position(2) measures through the trailing
whitespace (x = 8) while hit_test_point searches only the visible text, so
the round trip lands on the visible end offset 1, not 2: the claim fails for
boundaries inside a line's trailing whitespace. -/
theorem C6_round_trip_counterexample :
    isGraphemeBoundary (layoutGs [spaceLine]) 2 = true ∧
      (hit_test_point [spaceLine]
          (hit_test_text_position [spaceLine] 2).x
          (hit_test_text_position [spaceLine] 2).y).idx = 1 ∧
      ¬ (hit_test_point [spaceLine]
          (hit_test_text_position [spaceLine] 2).x
          (hit_test_text_position [spaceLine] 2).y).idx = 2 := by
  decide

/-- C6 amended: the round trip is the identity on every grapheme boundary at
or before the visible end of its line (boundaries inside trailing whitespace
excluded, as the counterexample forces), for well-formed layouts: cluster
byte lengths at least one, positive cluster widths, and each baseline within
its line box. -/
theorem C6_round_trip_on_visible_boundaries
    (lines : List ModelLine) (i k : Nat) (l : ModelLine)
    (hwf : ∀ m ∈ lines, (∀ g ∈ m.gs, 1 ≤ g.len ∧ 0 < g.width) ∧
      0 ≤ m.baseline ∧ m.baseline < m.height)
    (hget : lines.get? i = some l)
    (hk : k ≤ l.vis.length)
    (hside : boundBytes l.vis k < l.byteLen ∨ i + 1 = lines.length) :
    (hit_test_point lines
        (hit_test_text_position lines (lineStart lines i + boundBytes l.vis k)).x
        (hit_test_text_position lines (lineStart lines i + boundBytes l.vis k)).y).idx
      = lineStart lines i + boundBytes l.vis k := by
  have hmem : l ∈ lines := List.get?_mem hget
  obtain ⟨hg, hb0, hbh⟩ := hwf l hmem
  have hlen : ∀ g ∈ l.gs, 1 ≤ g.len := fun g hgm => (hg g hgm).1
  have hpos : ∀ g ∈ l.vis, 0 < g.width := fun g hgm =>
    (hg g (List.mem_append_left _ hgm)).2
  have hh0 : ∀ m ∈ lines, 0 ≤ m.height := fun m hm =>
    le_of_lt (lt_of_le_of_lt (hwf m hm).2.1 (hwf m hm).2.2)
  have hy0 : 0 ≤ lineY lines i := lineY_nonneg lines hh0 i
  have htt : hit_test_text_position lines (lineStart lines i + boundBytes l.vis k)
      = { x := snapX l.gs (boundBytes l.vis k),
          y := 0 + lineY lines i + l.baseline, line := 0 + i } :=
    httAux_spec lines i l _ hget hside 0 0
  rw [htt]
  show (hit_test_point lines (snapX l.gs (boundBytes l.vis k))
    (0 + lineY lines i + l.baseline)).idx = _
  have hx : snapX l.gs (boundBytes l.vis k) = boundWidth l.vis k :=
    snapX_vis_boundary l.vis l.tws hlen k hk
  have hyy : (0 : Int) + lineY lines i + l.baseline = lineY lines i + l.baseline := by
    omega
  rw [hx, hyy]
  have hv : vPick lines (lineY lines i + l.baseline) = (i, true) := by
    unfold vPick
    rw [if_neg (by omega)]
    exact pickLine_spec lines i l hget hh0 hb0 hbh
  have hv1 : (vPick lines (lineY lines i + l.baseline)).1 = i := by rw [hv]
  have hv2 : (vPick lines (lineY lines i + l.baseline)).2 = true := by rw [hv]
  unfold hit_test_point
  rw [hv1, hv2]
  unfold hitAt
  rw [hget]
  show lineStart lines i + (hitLineX l.vis (boundWidth l.vis k)).1 = _
  rw [hitLineX_boundary l.vis hpos k hk]

/-- C6 witness: on the two-line pietText layout, offset 2 (a boundary in the
visible part of line 0) round-trips to itself. -/
theorem C6_round_trip_on_visible_boundaries_witness :
    pietLayout.get? 0 = some pietLine0 ∧
      (hit_test_point pietLayout
          (hit_test_text_position pietLayout
            (lineStart pietLayout 0 + boundBytes pietLine0.vis 2)).x
          (hit_test_text_position pietLayout
            (lineStart pietLayout 0 + boundBytes pietLine0.vis 2)).y).idx
        = lineStart pietLayout 0 + boundBytes pietLine0.vis 2 :=
  ⟨by decide, C6_round_trip_on_visible_boundaries pietLayout 0 2 pietLine0
    (by decide) (by decide) (by decide) (by decide)⟩

/-- C7: the modelled line breaker on pietText (the piet-space-space-text-bang
test input, character widths as printed by the repository test) wrapped at
width 25 yields two lines; the second line holds text-bang starting at byte 6
with no trailing whitespace, the first line keeps the two spaces as trailing
whitespace; offset 5 measures to the width of piet-plus-one-space (25,
demonstrating the folded whitespace remains addressable at the end of line
0's measured extent) on line 0's baseline, and offset 6 lands at x 0 with
line 1's baseline y. -/
theorem C7_line_wrapping_piet_text :
    pietLayout.length = 2 ∧
      line_metric pietLayout 0
        = some { start_offset := 0, end_offset := 6, trailing_whitespace := 2,
                 baseline := 10, height := 14, y_offset := 0 } ∧
      line_metric pietLayout 1
        = some { start_offset := 6, end_offset := 11, trailing_whitespace := 0,
                 baseline := 10, height := 14, y_offset := 14 } ∧
      hit_test_text_position pietLayout 5
        = { x := chrWidth (pietText.take 5), y := 10, line := 0 } ∧
      hit_test_text_position pietLayout 6 = { x := 0, y := 24, line := 1 } := by
  decide

/-- C8: the modelled engine gives empty text one synthetic line: the hit test
at the origin resolves to offset 0, hit_test_text_position(0) sits on line 0
at x 0 with y equal to the font ascent (nonzero for a positive ascent), and
line_metric(0) exists and reports the font height. -/
theorem C8_empty_text_layout (a h : Int) (ha : 0 < a) :
    (hit_test_point (break_lines [] none a h) 0 0).idx = 0 ∧
      hit_test_text_position (break_lines [] none a h) 0
        = { x := 0, y := a, line := 0 } ∧
      a ≠ 0 ∧
      line_metric (break_lines [] none a h) 0
        = some { start_offset := 0, end_offset := 0, trailing_whitespace := 0,
                 baseline := a, height := h, y_offset := 0 } := by
  refine ⟨rfl, ?_, by omega, rfl⟩
  show httAux (break_lines [] none a h) 0 0 0 = _
  simp [break_lines, tokenize, fillAux, mkLine, httAux, snapX, toGraphemes,
    ModelLine.gs, List.foldr]

/-- C8 witness: the theorem applied at ascent 10 and height 12. -/
theorem C8_empty_text_layout_witness :
    (0 : Int) < 10 ∧
      (hit_test_point (break_lines [] none 10 12) 0 0).idx = 0 ∧
      hit_test_text_position (break_lines [] none 10 12) 0
        = { x := 0, y := 10, line := 0 } :=
  ⟨by decide, (C8_empty_text_layout 10 12 (by decide)).1,
    (C8_empty_text_layout 10 12 (by decide)).2.1⟩

/-- C9: the backend hit_test_text_position never asserts that the offset is a
character boundary: for every pango oracle whose reported line is valid and
every index below 2^31 (including indices strictly inside a multi-byte
character) it returns a hit position and cannot panic, contradicting the
trait documentation in src/piet/src/text.rs, which promises a panic for
non-boundary offsets. -/
theorem C9_no_boundary_assertion (L : PangoLayoutModel) (idx : Nat)
    (h1 : idx < 2 ^ 31)
    (h2 : ¬ (L.indexToLineX idx false).1 < 0)
    (h3 : (L.indexToLineX idx false).1.toNat < L.lineCount) :
    cairo_hit_test_text_position L idx
      = some { x := (L.indexToLineX idx false).2,
               y := L.baselineAt (L.indexToLineX idx false).1.toNat,
               line := (L.indexToLineX idx false).1.toNat } := by
  unfold cairo_hit_test_text_position
  rw [if_pos h1, if_neg h2, if_pos h3]

/-- C9 witness: the e-acute oracle at index 1, which is strictly inside the
two-byte character: the call returns a position (the cluster edge pango
reports), not a panic. -/
theorem C9_no_boundary_assertion_witness :
    (1 : Nat) < 2 ^ 31 ∧
      cairo_hit_test_text_position eAcuteModel 1
        = some { x := 7, y := 10, line := 0 } :=
  ⟨by norm_num, C9_no_boundary_assertion eAcuteModel 1 (by norm_num)
    (by decide) (by decide)⟩

/-- C10: load_font of the pango backend returns Err(Error::NotSupported) for
every font data and leaves the factory state unchanged. -/
theorem C10_load_font_always_not_supported
    (st : PangoTextState) (data : List Nat) :
    load_font st data = (Except.error PietError.NotSupported, st) := rfl

end PietSpec
